import Mathlib

/-!
Verification of the text-selection engine of `legislice`
(`legislice/enactments.py`).

The development shallowly embeds the selection engine.  Texts are `List Char`
(mirroring Python `str`), half-open character ranges are `Sel`, and a
`TextPositionSet` is a normalized `List Sel` (ascending, disjoint,
nonempty ranges).  The `anchorpoint` library is an external dependency of the
repository (its code is not part of the repository); its primitives are
modelled from the specification's description of the consumed interface
(position-set arithmetic, margin expansion, rendering to passage sequences,
quote-to-position resolution, and sequence comparison).  Every definition that
is modelled this way says so in its doc comment.  Everything else is
translated from `enactments.py` directly.

The Python source stores each node's current selection in a `_selection`
attribute of the node while the tree-distribution methods run, and the
passage-level `selection` field holds the same information in flattened
subtree coordinates (reconstructed by `tree_selection`).  The embedding
therefore carries the node-local selection as a field of the node type
`Enactment`, and treats the passage-level flat selection as
`tree_selection` of the tree.
-/

/-- A `TextPositionSelector`: a half-open character range `[start, stop)`.
Field `stop` plays the role of the Python attribute `end`. -/
structure Sel where
  start : Nat
  stop : Nat
deriving DecidableEq, Repr

/-- Modelled from the spec: insertion of a range into a sorted list of ranges
by start position (part of Position Set normalization, §3: "an ordered,
non-overlapping, ascending set"). -/
def insertSorted (s : Sel) : List Sel → List Sel
  | [] => [s]
  | t :: rest => if s.start ≤ t.start then s :: t :: rest else t :: insertSorted s rest

/-- Modelled from the spec: sort ranges by start position. -/
def sortSels : List Sel → List Sel
  | [] => []
  | s :: rest => insertSorted s (sortSels rest)

/-- Modelled from the spec: merge a sorted run of ranges, combining any pair
that overlaps or touches (§3: "ranges never overlap ... operations must
re-normalize to preserve this invariant"). -/
def sweepMerge : Sel → List Sel → List Sel
  | cur, [] => [cur]
  | cur, s :: rest =>
    if s.start ≤ cur.stop then sweepMerge ⟨cur.start, max cur.stop s.stop⟩ rest
    else cur :: sweepMerge s rest

/-- Modelled from the spec: Position Set normalization — drop empty ranges,
sort ascending, merge overlapping or touching ranges.  Applied wherever the
Python code constructs a `TextPositionSet`. -/
def normSet (l : List Sel) : List Sel :=
  match sortSels (l.filter (fun s => decide (s.start < s.stop))) with
  | [] => []
  | s :: rest => sweepMerge s rest

/-- Whether a list of ranges is already in normalized form: every range
nonempty, and consecutive ranges strictly separated. -/
def isNormalized : List Sel → Bool
  | [] => true
  | [s] => decide (s.start < s.stop)
  | s :: t :: rest =>
    decide (s.start < s.stop) && decide (s.stop < t.start) && isNormalized (t :: rest)

/-- Modelled from the spec: union of two Position Sets (`+` / `|` on
`TextPositionSet`), §4.1. -/
def PosSet.union (a b : List Sel) : List Sel := normSet (a ++ b)

/-- Modelled from the spec: shift every range of a Position Set up by `n`
(`TextPositionSet + int`), §4.1 `offset`. -/
def PosSet.offset (n : Nat) (a : List Sel) : List Sel :=
  a.map (fun s => ⟨s.start + n, s.stop + n⟩)

/-- Modelled from the spec: shift every range of a Position Set down by `n`
(`TextPositionSet - int`), clamping at zero and dropping ranges that fall
entirely below zero; §4.1 `offset` used "when converting between node-local
and subtree-flattened coordinate spaces". -/
def PosSet.unoffset (n : Nat) (a : List Sel) : List Sel :=
  normSet (a.map (fun s => ⟨s.start - n, s.stop - n⟩))

/-- Modelled from the spec: intersection of a Position Set with a bounding
range (§4.1 `limit`). -/
def PosSet.inter (a : List Sel) (b : Sel) : List Sel :=
  normSet (a.map (fun s => ⟨max s.start b.start, min s.stop b.stop⟩))

/-- Modelled from the spec, §4.1 `add_margin`: "extend each range by up to
`width` characters on each side, merging any resulting overlaps, without
exceeding the bounds of `text`".  Only the length of the text matters. -/
def addMargin (textLen width : Nat) (a : List Sel) : List Sel :=
  normSet (a.map (fun s => ⟨s.start - width, min (s.stop + width) textLen⟩))

/-- Whether position `p` is covered by some range of the set. -/
def covers (a : List Sel) (p : Nat) : Bool :=
  a.any (fun s => decide (s.start ≤ p) && decide (p < s.stop))

/-- Slice `text[s.start : s.stop]` with Python-style clamping. -/
def sliceText (t : List Char) (s : Sel) : List Char :=
  (t.drop s.start).take (s.stop - s.start)

/-- Modelled from the spec, §4.4/§3: render the ranges of a Position Set (in
ascending order) over a text as a Text Passage Sequence: each range yields a
fragment, followed by a gap marker when unselected text follows and gaps are
requested. -/
def renderRanges (t : List Char) (inc : Bool) : List Sel → List (Option (List Char))
  | [] => []
  | s :: rest =>
    let e := min s.stop t.length
    Option.some (sliceText t ⟨s.start, e⟩) ::
      (if inc && decide (e < t.length) then Option.none :: renderRanges t inc rest
       else renderRanges t inc rest)

/-- Modelled from the spec, §4.4/§3: `TextPositionSet.as_text_sequence` — the
rendered Text Passage Sequence of a selection over a text, with a leading gap
marker when the selection does not start at the beginning of the text. -/
def asTextSequence (t : List Char) (a : List Sel) (inc : Bool) :
    List (Option (List Char)) :=
  match a with
  | [] => if inc && decide (t ≠ []) then [Option.none] else []
  | s :: rest =>
    (if inc && decide (0 < s.start) then [Option.none] else []) ++
      renderRanges t inc (s :: rest)

/-- Modelled from the spec, §4.5: fragment normalization "strips trailing
punctuation/space: `,:;. `". -/
def stripEndChars (p : List Char) : List Char :=
  (p.reverse.dropWhile (fun c => decide (c ∈ [',', ':', ';', '.', ' ']))).reverse

/-- Boolean substring check: does `needle` occur inside `hay`? -/
def hasSub (hay needle : List Char) : Bool :=
  (List.range (hay.length + 1)).any (fun i => needle.isPrefixOf (hay.drop i))

/-- Number of (possibly overlapping) occurrence positions of `pat` in `t`. -/
def countOccur (pat t : List Char) : Nat :=
  ((List.range (t.length + 1)).filter (fun i => pat.isPrefixOf (t.drop i))).length

/-- First occurrence position of `pat` in `t`, if any. -/
def findOccur (pat t : List Char) : Option Nat :=
  ((List.range (t.length + 1)).filter (fun i => pat.isPrefixOf (t.drop i))).head?

/-- Modelled from the spec, §4.5: `TextSequence.__ge__` — every non-gap
fragment of `b` must be contained, as a normalized substring, in some non-gap
fragment of `a`. -/
def seqImplies (a b : List (Option (List Char))) : Bool :=
  b.all (fun ob =>
    match ob with
    | Option.none => true
    | Option.some f =>
      a.any (fun oa =>
        match oa with
        | Option.none => false
        | Option.some g => hasSub (stripEndChars g) (stripEndChars f)))

/-- Leading-whitespace removal, as in Python `str.strip`. -/
def trimLeftWs (l : List Char) : List Char := l.dropWhile Char.isWhitespace

/-- Trailing-whitespace removal, as in Python `str.strip`. -/
def trimRightWs (l : List Char) : List Char :=
  (l.reverse.dropWhile Char.isWhitespace).reverse

/-- Python `str.strip`: remove leading and trailing whitespace. -/
def strip (l : List Char) : List Char := trimLeftWs (trimRightWs l)

/-- A text is trimmed when stripping leaves it unchanged. -/
def Trimmed (l : List Char) : Prop := trimLeftWs l = l ∧ trimRightWs l = l

instance (l : List Char) : Decidable (Trimmed l) := by
  unfold Trimmed; infer_instance

/-- Python `" ".join(parts)`: the parts joined with single spaces. -/
def joinWithSpace : List (List Char) → List Char
  | [] => []
  | [p] => p
  | p :: q :: rest => p ++ ' ' :: joinWithSpace (q :: rest)

/-- An `Enactment` node: citation path (`node`), own text content, the
node-local current selection (the Python `_selection` attribute set by the
selection-distribution methods), and child nodes.  Headings, dates and
cross-references play no role in the selection engine and are omitted.
Children are modelled as fully resolved nodes (the claims under verification
quantify over resolved trees). -/
inductive Enactment : Type where
  | mk (node : List Char) (content : List Char) (selection : List Sel)
      (children : List Enactment)
deriving Repr

/-- Citation path of the node. -/
def Enactment.node : Enactment → List Char
  | .mk n _ _ _ => n

/-- Own text content of the node (`Enactment.content`; empty when there is no
text version). -/
def Enactment.content : Enactment → List Char
  | .mk _ c _ _ => c

/-- The node-local current selection (`_selection`). -/
def Enactment.selection : Enactment → List Sel
  | .mk _ _ s _ => s

/-- Child nodes (`Enactment.nested_children`; all children resolved). -/
def Enactment.children : Enactment → List Enactment
  | .mk _ _ _ ch => ch

/-- Translation of `Enactment.padded_length` on a raw content: "length of self's content
plus one character for space before next section", zero for empty content. -/
def padded_len (content : List Char) : Nat :=
  if content = [] then 0 else content.length + 1

/-- Accessor form of `Enactment.padded_length`. -/
def Enactment.padded_length (e : Enactment) : Nat := padded_len e.content

mutual

/-- Translation of `Enactment.text` from the source: joins `self.content` with
`child.content` for each nested child whose (recursive) `text` is truthy,
space-separated, then strips the result. -/
def Enactment.text : Enactment → List Char
  | .mk _ c _ ch => strip (joinWithSpace (c :: textParts ch))

/-- The list-of-parts accumulator of `Enactment.text`: for each child, its
`content` is appended when the child's `text` is nonempty. -/
def textParts : List Enactment → List (List Char)
  | [] => []
  | e :: rest =>
    (if Enactment.text e ≠ [] then [Enactment.content e] else []) ++ textParts rest

end

mutual

/-- Modelled from the spec: the intended full text of a node — "a node's full
text is the concatenation of its own content and the full text of each
resolved child, space-joined" (§3, Enactment Node invariant).  This is the
spec-side definition used to compare against the source's `Enactment.text`. -/
def fullText : Enactment → List Char
  | .mk _ c _ ch => strip (joinWithSpace (c :: fullTextParts ch))

/-- Parts accumulator for `fullText`: each child contributes its recursive
full text when that is nonempty. -/
def fullTextParts : List Enactment → List (List Char)
  | [] => []
  | e :: rest => (if fullText e ≠ [] then [fullText e] else []) ++ fullTextParts rest

end

/-- Translation of `Enactment.make_selection_of_all_text`: the full range over `self.text`,
or the empty set when there is no text. -/
def make_selection_of_all_text (e : Enactment) : List Sel :=
  if e.text = [] then [] else [⟨0, e.text.length⟩]

/-- The polymorphic `selection` argument of the selection entry points
(boolean / absent / explicit position set), represented as a tagged union as
§9 of the spec suggests.  Quote-selector and string arguments are resolved to
position sets before reaching the code under verification and are therefore
represented by `posSel`. -/
inductive SelectionInput : Type where
  | boolSel (b : Bool)
  | noneSel
  | posSel (s : List Sel)

/-- Translation of `Enactment.convert_selection_to_set`; boolean-`True` branch translated
from the source (it builds the range `[0, len(content) + 1)`); a position-set
argument is a `TextPositionSet` already (normalized); `False`/`None` resolve
to the empty set through the selector factory. -/
def convert_selection_to_set (e : Enactment) : SelectionInput → List Sel
  | SelectionInput.boolSel true => normSet [⟨0, e.content.length + 1⟩]
  | SelectionInput.boolSel false => []
  | SelectionInput.noneSel => []
  | SelectionInput.posSel s => normSet s

/-- Translation of `Enactment.raise_error_for_extra_selector`: true when the code raises
`Selector ... was not used`, i.e. some selector starts after
`len(self.text) + 1`. -/
def raisesExtraSelector (e : Enactment) (sels : List Sel) : Bool :=
  sels.any (fun s => decide (e.text.length + 1 < s.start))

/-- Translation of `Enactment.limit_selection`: intersect with the bounding range derived
from `start`/`end` (an absent `end` bounds at the end of the text). -/
def limit_selection (e : Enactment) (sels : List Sel) (start : Nat)
    (stop : Option Nat) : List Sel :=
  PosSet.inter sels
    ⟨start, match stop with
            | Option.none => e.text.length
            | Option.some v => min v e.text.length⟩

/-- Translation of `Enactment.make_selection`: `False`/`None` give the empty set, `True`
gives all text, and an explicit position set is checked by
`raise_error_for_extra_selector` and then limited.  An `Except.error` value
models the raised `ValueError`. -/
def make_selection (e : Enactment) (sel : SelectionInput) (start : Nat)
    (stop : Option Nat) : Except Unit (List Sel) :=
  match sel with
  | SelectionInput.noneSel => Except.ok []
  | SelectionInput.boolSel false => Except.ok []
  | SelectionInput.boolSel true => Except.ok (make_selection_of_all_text e)
  | SelectionInput.posSel s =>
    let s' := normSet s
    if raisesExtraSelector e s' then Except.error ()
    else Except.ok (limit_selection e s' start stop)

/-- An `EnactmentPassage`: an enactment together with the passage-level flat
selection field (subtree-flattened coordinates). -/
structure EnactmentPassage where
  enactment : Enactment
  selection : List Sel

/-- Translation of `Enactment.select`: make a selection and wrap it in a passage. -/
def Enactment.select (e : Enactment) (sel : SelectionInput) :
    Except Unit EnactmentPassage :=
  Except.map (fun s => EnactmentPassage.mk e s) (make_selection e sel 0 Option.none)

/-- Translation of the `while` loop of `select_from_text_positions_without_nesting`,
translated from the source: consume selectors while the front one starts
before `len(content)`; a selector ending inside the content is kept whole; a
selector reaching the end of the content is truncated to `len(content)`, and
when it extends past `padded_length = len(content) + 1` its remainder
`[padded_length, end)` is pushed back to the front of the queue (where the
loop condition immediately fails, since `padded_length > len(content)`).
Returns (selectors kept at this node, leftover queue). -/
def swnLoop (clen : Nat) : List Sel → List Sel × List Sel
  | [] => ([], [])
  | s :: rest =>
    if s.start < clen then
      if s.stop < clen then
        let r := swnLoop clen rest
        (s :: r.1, r.2)
      else
        if clen + 1 < s.stop then
          ([⟨s.start, clen⟩], ⟨clen + 1, s.stop⟩ :: rest)
        else
          let r := swnLoop clen rest
          (⟨s.start, clen⟩ :: r.1, r.2)
    else ([], s :: rest)

/-- Translation of `Enactment.select_from_text_positions_without_nesting`: the loop above,
after which the kept selectors become the node's `_selection` expanded by
`add_margin(text=self.content, margin_width=4)`, and the leftover selectors
are returned as a `TextPositionSet`.  First component: the stored
`_selection`; second: the returned unused set. -/
def select_from_text_positions_without_nesting (content : List Char)
    (sels : List Sel) : List Sel × List Sel :=
  let r := swnLoop content.length sels
  (addMargin content.length 4 (normSet r.1), normSet r.2)

/-- Replace the node-local selection of the root node. -/
def Enactment.setSelection : Enactment → List Sel → Enactment
  | .mk n c _ ch, s => .mk n c s ch

/-- Translation of `Enactment.select_without_children`: convert the argument to a set, store
the node-local portion, and raise `Selector ... was not used` when some
unused selector starts after `len(self.text) + 1`.  Returns the updated node
and whether the error is raised (the update happens before the raise). -/
def select_without_children (e : Enactment) (sels : List Sel) :
    Enactment × Bool :=
  let r := select_from_text_positions_without_nesting e.content (normSet sels)
  (e.setSelection r.1, raisesExtraSelector e r.2)

mutual

/-- Translation of `EnactmentPassage.select_from_text_positions`: assign the front of the
queue to this node via `select_from_text_positions_without_nesting`, shift
the remainder down by `padded_length`, and pass it through the children in
declared order.  Returns the updated tree and the selectors no node used. -/
def select_from_text_positions : Enactment → List Sel → Enactment × List Sel
  | .mk n c _ ch, sels =>
    let r := select_from_text_positions_without_nesting c sels
    let after := PosSet.unoffset (padded_len c) r.2
    let rc := sftpList ch after
    (.mk n c r.1 rc.1, rc.2)

/-- Children traversal of `select_from_text_positions`. -/
def sftpList : List Enactment → List Sel → List Enactment × List Sel
  | [], sels => ([], sels)
  | e :: rest, sels =>
    let a := select_from_text_positions e sels
    let b := sftpList rest a.2
    (a.1 :: b.1, b.2)

end

mutual

/-- Translation of `EnactmentPassage._tree_selection`: fold over the tree in document order,
offsetting each node's local selection by the accumulated tree length and
adding `padded_length` per node. -/
def tree_selection_aux : Enactment → List Sel → Nat → List Sel × Nat
  | .mk _ c sel ch, selector_set, tree_length =>
    tsList ch (PosSet.union selector_set (PosSet.offset tree_length sel))
      (tree_length + padded_len c)

/-- Children traversal of `_tree_selection`. -/
def tsList : List Enactment → List Sel → Nat → List Sel × Nat
  | [], s, n => (s, n)
  | e :: rest, s, n =>
    let r := tree_selection_aux e s n
    tsList rest r.1 r.2

end

/-- Translation of `EnactmentPassage.tree_selection`: the flat subtree-coordinate selection
reconstructed from the node-local selections. -/
def tree_selection (e : Enactment) : List Sel := (tree_selection_aux e [] 0).1

mutual

/-- Translation of `EnactmentPassage.select_none`: clear the node's selection and recurse
into the children. -/
def select_none : Enactment → Enactment
  | .mk n c _ ch => .mk n c [] (selectNoneList ch)

/-- Children traversal of `select_none`. -/
def selectNoneList : List Enactment → List Enactment
  | [] => []
  | e :: rest => select_none e :: selectNoneList rest

end

mutual

/-- Whether every node-local selection in the tree is empty. -/
def allCleared : Enactment → Bool
  | .mk _ _ sel ch => sel.isEmpty && allClearedList ch

/-- Children traversal of `allCleared`. -/
def allClearedList : List Enactment → Bool
  | [] => true
  | e :: rest => allCleared e && allClearedList rest

end

/-- Translation of `EnactmentPassage.text_sequence`: the Text Passage Sequence of the
passage's flat selection rendered over the enactment's full text. -/
def text_sequence (e : Enactment) (inc : Bool) : List (Option (List Char)) :=
  asTextSequence e.text (tree_selection e) inc

/-- Translation of `EnactmentPassage.implies` and `__ge__`: compare the gap-free text
sequences with the sequence containment relation. -/
def impliesB (a b : Enactment) : Bool :=
  seqImplies (text_sequence a false) (text_sequence b false)

/-- Translation of `EnactmentPassage.select_more`: union the converted selection into the
passage's selection, expand it by `add_margin(text=self.text,
margin_width=4)`, and only then run `raise_error_for_extra_selector` on the
added selection.  Returns the updated passage and whether the error is
raised; the update is in place before the raise and is not rolled back. -/
def select_more (p : EnactmentPassage) (sels : List Sel) :
    EnactmentPassage × Bool :=
  let s' := normSet sels
  (⟨p.enactment,
    addMargin p.enactment.text.length 4 (PosSet.union p.selection s')⟩,
   raisesExtraSelector p.enactment s')

/-- Translation of `EnactmentPassage.select_more_text_in_current_branch`: redistribute the
union of the current `tree_selection` and the added set through
`select_from_text_positions`.  The updated tree is the passage's new state
(the Python method returns the unused leftover). -/
def select_more_text_in_current_branch (self : Enactment) (added : List Sel) :
    Enactment :=
  (select_from_text_positions self (PosSet.union (tree_selection self) added)).1

/-- Modelled from the spec, §4.2/§4.6: the re-anchored position set — each
selected range of `other` is turned into a quote (its exact text in
`other.text`) and resolved against `self.text` at its first occurrence. -/
def quotePositions (self other : Enactment) : List Sel :=
  normSet
    (((tree_selection other).map (fun s => sliceText other.text s)).filterMap
      (fun q => Option.map (fun i => Sel.mk i (i + q.length))
        (findOccur q self.text)))

/-- Whether an `Except` result is an error (a raised `ValueError`). -/
def isErr {α : Type} : Except Unit α → Bool
  | Except.error _ => true
  | Except.ok _ => false

/-- Translation of `EnactmentPassage.select_more_text_from_changed_version`: convert each of
`other`'s selected ranges to a quote selector over `other.text`; raise
`ValueError` when some quote is not uniquely present in `self.text`
(quote-to-position uniqueness is modelled from the spec, §4.2); otherwise add
the re-anchored positions through `select_more_text_in_current_branch`. -/
def select_more_text_from_changed_version (self other : Enactment) :
    Except Unit Enactment :=
  if ((tree_selection other).map (fun s => sliceText other.text s)).all
      (fun q => decide (countOccur q self.text = 1)) then
    Except.ok (select_more_text_in_current_branch self (quotePositions self other))
  else Except.error ()

mutual

/-- Translation of `EnactmentPassage._update_text_at_included_node`: at the node whose
citation path equals `other.node`, union in `other`'s selection when the text
is identical, or fall back to re-anchoring when the text differs; otherwise
recurse into the first child whose path is a prefix of `other.node`.
Returns (updated tree, found_node, updated_selection).  The identical-text
branch passes `other`'s flat selection (`other.selection` on the passage,
i.e. `tree_selection` in this embedding). -/
def update_text_at_included_node (self other : Enactment) :
    Enactment × Bool × Bool :=
  if self.node = other.node then
    if self.text = other.text then
      (select_more_text_in_current_branch self (tree_selection other), true, true)
    else
      match select_more_text_from_changed_version self other with
      | Except.ok t => (t, true, true)
      | Except.error _ => (self, true, false)
  else
    match self with
    | .mk n c sel ch =>
      let r := updateChildList ch other
      (.mk n c sel r.1, r.2)

/-- Children traversal of `_update_text_at_included_node`: the loop returns
at the first child whose path is a prefix of `other.node`. -/
def updateChildList : List Enactment → Enactment → List Enactment × Bool × Bool
  | [], _ => ([], false, false)
  | c :: rest, other =>
    if List.isPrefixOf c.node other.node then
      let r := update_text_at_included_node c other
      (r.1 :: rest, r.2)
    else
      let r := updateChildList rest other
      (c :: r.1, r.2)

end

/-- The result of `EnactmentPassage.__add__`, distinguishing which object is
returned: `fresh` is a newly allocated passage built from a deep copy,
`reusedSelf` is the very object `self` (returned unchanged when
`self >= other`), `reusedOther` likewise for `other`; the `err` constructors
are the raised `ValueError`s. -/
inductive AddResult : Type where
  | fresh (p : Enactment)
  | reusedSelf
  | reusedOther
  | errNotFound
  | errNotUpdated
  | errUnrelated
deriving Repr

/-- Translation of `EnactmentPassage._add_enactment_at_included_node`: return `self` itself
when `self >= other`; otherwise deep-copy `self`, update the copy at the
included node, and raise when the node is not found or the selection cannot
be placed. -/
def add_enactment_at_included_node (self other : Enactment) : AddResult :=
  if impliesB self other then AddResult.reusedSelf
  else
    match update_text_at_included_node self other with
    | (_, false, _) => AddResult.errNotFound
    | (_, true, false) => AddResult.errNotUpdated
    | (t, true, true) => AddResult.fresh t

/-- Translation of `EnactmentPassage.__add__` for two passages: dispatch on which citation
path is a prefix of the other (`startswith`), and raise when neither is. -/
def addPassage (a b : Enactment) : AddResult :=
  if List.isPrefixOf a.node b.node then add_enactment_at_included_node a b
  else if List.isPrefixOf b.node a.node then
    match add_enactment_at_included_node b a with
    | AddResult.reusedSelf => AddResult.reusedOther
    | r => r
  else AddResult.errUnrelated

/-- The merged passage produced by `a + b`, `none` when the merge raises
(`ValueError`).  A reused result is the corresponding input object. -/
def addOutcome (a b : Enactment) : Option Enactment :=
  match addPassage a b with
  | AddResult.fresh p => Option.some p
  | AddResult.reusedSelf => Option.some a
  | AddResult.reusedOther => Option.some b
  | _ => Option.none

/-- The inner `for right in enactments` loop of `consolidate_enactments`: at
the first `right` that merges with `left`, remove it and append the combined
passage at the end; `none` when every merge raises. -/
def tryMerge (left : Enactment) : List Enactment → Option (List Enactment)
  | [] => Option.none
  | r :: rest =>
    match addOutcome left r with
    | Option.some comb => Option.some (rest ++ [comb])
    | Option.none =>
      match tryMerge left rest with
      | Option.some l' => Option.some (r :: l')
      | Option.none => Option.none

/-- Split a list into (everything but the last element, last element), as
`list.pop()` does. -/
def splitLast (l : List Enactment) : Option (List Enactment × Enactment) :=
  match l.getLast? with
  | Option.none => Option.none
  | Option.some x => Option.some (l.dropLast, x)

/-- The `while enactments` loop of `consolidate_enactments`, with an explicit
fuel argument; each iteration shortens the working list by one, so fuel equal
to the list length always suffices (proved below). -/
def consolidateLoop : Nat → List Enactment → List Enactment → List Enactment
  | 0, _, acc => acc
  | Nat.succ f, ens, acc =>
    match splitLast ens with
    | Option.none => acc
    | Option.some (rest, left) =>
      match tryMerge left rest with
      | Option.some ens' => consolidateLoop f ens' acc
      | Option.none => consolidateLoop f rest (acc ++ [left])

/-- Translation of `consolidate_enactments`. -/
def consolidate_enactments (l : List Enactment) : List Enactment :=
  consolidateLoop l.length l []

/-! ### Supporting lemmas about normalized Position Sets -/

/-- A normalized list has a nonempty head range. -/
theorem isNormalized_head {s : Sel} {rest : List Sel}
    (h : isNormalized (s :: rest) = true) : s.start < s.stop := by
  cases rest with
  | nil => simpa [isNormalized] using h
  | cons t r =>
    simp only [isNormalized, Bool.and_eq_true, decide_eq_true_eq] at h
    exact h.1.1

/-- The tail of a normalized list is normalized. -/
theorem isNormalized_tail {s : Sel} {rest : List Sel}
    (h : isNormalized (s :: rest) = true) : isNormalized rest = true := by
  cases rest with
  | nil => rfl
  | cons t r =>
    simp only [isNormalized, Bool.and_eq_true, decide_eq_true_eq] at h ⊢
    rcases h with ⟨⟨_, _⟩, h2⟩
    revert h2
    cases r <;> simp [isNormalized, Bool.and_eq_true]

/-- In a normalized cons, the head stops before the next range starts. -/
theorem isNormalized_gap {s t : Sel} {r : List Sel}
    (h : isNormalized (s :: t :: r) = true) : s.stop < t.start := by
  simp only [isNormalized, Bool.and_eq_true, decide_eq_true_eq] at h
  exact h.1.2

/-- Every range of a normalized list is nonempty. -/
theorem isNormalized_mem {l : List Sel} (h : isNormalized l = true) :
    ∀ s ∈ l, s.start < s.stop := by
  induction l with
  | nil => simp
  | cons a rest ih =>
    intro s hs
    rcases List.mem_cons.mp hs with rfl | hs
    · exact isNormalized_head h
    · exact ih (isNormalized_tail h) s hs

/-- Inserting at the front of a sorted list whose head starts no earlier. -/
theorem insertSorted_front {s : Sel} {l : List Sel}
    (h : ∀ t ∈ l.head?, s.start ≤ t.start) : insertSorted s l = s :: l := by
  cases l with
  | nil => rfl
  | cons t r => simp [insertSorted, h t rfl]

/-- Sorting a normalized list leaves it unchanged. -/
theorem sortSels_of_isNormalized {l : List Sel} (h : isNormalized l = true) :
    sortSels l = l := by
  induction l with
  | nil => rfl
  | cons s rest ih =>
    have hrest := isNormalized_tail h
    rw [sortSels, ih hrest, insertSorted_front]
    intro t ht
    cases rest with
    | nil => simp at ht
    | cons u r =>
      simp only [List.head?_cons, Option.mem_def, Option.some.injEq] at ht
      subst ht
      have h1 := isNormalized_head h
      have h2 := isNormalized_gap h
      omega

/-- Sweeping a normalized run leaves it unchanged. -/
theorem sweepMerge_of_isNormalized {s : Sel} {rest : List Sel}
    (h : isNormalized (s :: rest) = true) : sweepMerge s rest = s :: rest := by
  induction rest generalizing s with
  | nil => rfl
  | cons t r ih =>
    have hgap := isNormalized_gap h
    rw [sweepMerge, if_neg (by omega), ih (isNormalized_tail h)]

/-- Normalization is the identity on normalized lists. -/
theorem normSet_of_isNormalized {l : List Sel} (h : isNormalized l = true) :
    normSet l = l := by
  have hfilter : l.filter (fun s => decide (s.start < s.stop)) = l :=
    List.filter_eq_self.mpr (fun s hs => decide_eq_true (isNormalized_mem h s hs))
  unfold normSet
  rw [hfilter, sortSels_of_isNormalized h]
  cases l with
  | nil => rfl
  | cons s rest => exact sweepMerge_of_isNormalized h

/-- Normalizing a singleton nonempty range is the identity. -/
theorem normSet_singleton {s : Sel} (h : s.start < s.stop) :
    normSet [s] = [s] := by
  apply normSet_of_isNormalized
  simp [isNormalized, h]

/-- Offsetting by zero is the identity. -/
theorem offset_zero (a : List Sel) : PosSet.offset 0 a = a := by
  unfold PosSet.offset
  have : ∀ s : Sel, (⟨s.start + 0, s.stop + 0⟩ : Sel) = s := by
    intro s; cases s; simp
  simp [this]

/-! ### Supporting lemmas about the without-nesting loop -/

/-- When every range of a normalized set ends within the content, the
without-nesting loop keeps every range unchanged and leaves nothing over. -/
theorem swnLoop_consume {clen : Nat} {S : List Sel}
    (hn : isNormalized S = true) (hb : ∀ s ∈ S, s.stop ≤ clen) :
    swnLoop clen S = (S, []) := by
  induction S with
  | nil => rfl
  | cons s rest ih =>
    have hne := isNormalized_head hn
    have hstop := hb s (List.mem_cons_self s rest)
    have hstart : s.start < clen := by omega
    have ihv := ih (isNormalized_tail hn) (fun t ht => hb t (List.mem_cons_of_mem s ht))
    by_cases hlt : s.stop < clen
    · rw [swnLoop, if_pos hstart, if_pos hlt, ihv]
    · have hstopeq : s.stop = clen := by omega
      have : (⟨s.start, clen⟩ : Sel) = s := by cases s; simp_all
      rw [swnLoop, if_pos hstart, if_neg hlt, if_neg (by omega), ihv, this]

/-- Every leftover range either was supplied or is the pushed-back remainder
starting at `padded_length = clen + 1`. -/
theorem swnLoop_leftover_mem {clen : Nat} {S : List Sel} {t : Sel}
    (h : t ∈ (swnLoop clen S).2) : t ∈ S ∨ t.start = clen + 1 := by
  induction S with
  | nil => simp [swnLoop] at h
  | cons s rest ih =>
    by_cases h1 : s.start < clen
    · by_cases h2 : s.stop < clen
      · rw [swnLoop, if_pos h1, if_pos h2] at h
        rcases ih h with hm | he
        · exact Or.inl (List.mem_cons_of_mem s hm)
        · exact Or.inr he
      · by_cases h3 : clen + 1 < s.stop
        · rw [swnLoop, if_pos h1, if_neg h2, if_pos h3] at h
          simp only at h
          rcases List.mem_cons.mp h with rfl | hm
          · exact Or.inr rfl
          · exact Or.inl (List.mem_cons_of_mem s hm)
        · rw [swnLoop, if_pos h1, if_neg h2, if_neg h3] at h
          rcases ih h with hm | he
          · exact Or.inl (List.mem_cons_of_mem s hm)
          · exact Or.inr he
    · rw [swnLoop, if_neg h1] at h
      exact Or.inl h

/-- A supplied range starting at or after the content length is never
consumed: it survives into the leftover queue. -/
theorem swnLoop_leftover_keeps {clen : Nat} {S : List Sel} {s : Sel}
    (hs : s ∈ S) (hge : clen ≤ s.start) : s ∈ (swnLoop clen S).2 := by
  induction S with
  | nil => simp at hs
  | cons h rest ih =>
    by_cases h1 : h.start < clen
    · have hmem : s ∈ rest := by
        rcases List.mem_cons.mp hs with rfl | hm
        · omega
        · exact hm
      by_cases h2 : h.stop < clen
      · rw [swnLoop, if_pos h1, if_pos h2]
        exact ih hmem
      · by_cases h3 : clen + 1 < h.stop
        · rw [swnLoop, if_pos h1, if_neg h2, if_pos h3]
          exact List.mem_cons_of_mem _ hmem
        · rw [swnLoop, if_pos h1, if_neg h2, if_neg h3]
          exact ih hmem
    · rw [swnLoop, if_neg h1]
      exact hs

/-- The leftover queue of the without-nesting loop is normalized whenever the
supplied set is. -/
theorem swnLoop_leftover_norm {clen : Nat} {S : List Sel}
    (hn : isNormalized S = true) : isNormalized (swnLoop clen S).2 = true := by
  induction S with
  | nil => simpa [swnLoop] using hn
  | cons s rest ih =>
    by_cases h1 : s.start < clen
    · by_cases h2 : s.stop < clen
      · rw [swnLoop, if_pos h1, if_pos h2]
        exact ih (isNormalized_tail hn)
      · by_cases h3 : clen + 1 < s.stop
        · rw [swnLoop, if_pos h1, if_neg h2, if_pos h3]
          simp only
          cases rest with
          | nil => simp [isNormalized, h3]
          | cons t r =>
            have hgap := isNormalized_gap hn
            have htail := isNormalized_tail hn
            cases r <;>
              simp_all [isNormalized, Bool.and_eq_true, decide_eq_true_eq]
        · rw [swnLoop, if_pos h1, if_neg h2, if_neg h3]
          exact ih (isNormalized_tail hn)
    · rw [swnLoop, if_neg h1]
      exact hn

/-! ### Supporting lemmas about text lengths -/

/-- The join of a nonempty list of parts starts with the first part. -/
theorem joinWithSpace_cons (c : List Char) (parts : List (List Char)) :
    ∃ r, joinWithSpace (c :: parts) = c ++ r := by
  cases parts with
  | nil => exact ⟨[], by simp [joinWithSpace]⟩
  | cons p rest => exact ⟨' ' :: joinWithSpace (p :: rest), rfl⟩

/-- Dropping distributes over appends: either the first part is dropped
entirely, or the drop finishes inside it. -/
theorem dropWhile_append_cases (p : Char → Bool) (a b : List Char) :
    (a.dropWhile p = [] ∧ (a ++ b).dropWhile p = b.dropWhile p) ∨
    ((a ++ b).dropWhile p = a.dropWhile p ++ b) := by
  induction a with
  | nil => exact Or.inl ⟨rfl, rfl⟩
  | cons x xs ih =>
    by_cases hx : p x = true
    · rcases ih with ⟨h1, h2⟩ | h
      · exact Or.inl ⟨by simp [List.dropWhile, hx, h1], by simp [List.dropWhile, hx, h2]⟩
      · exact Or.inr (by simp [List.dropWhile, hx, h])
    · exact Or.inr (by simp [List.dropWhile, hx])

/-- Stripping an extension of a trimmed text keeps at least the trimmed
text's length. -/
theorem strip_append_length {c : List Char} (r : List Char)
    (h : Trimmed c) : c.length ≤ (strip (c ++ r)).length := by
  rcases h with ⟨hleft, hright⟩
  have hleft' : List.dropWhile Char.isWhitespace c = c := hleft
  unfold strip trimLeftWs
  unfold trimRightWs
  rw [List.reverse_append]
  rcases dropWhile_append_cases Char.isWhitespace r.reverse c.reverse with ⟨_, h2⟩ | h2
  · rw [h2]
    have hc : (c.reverse.dropWhile Char.isWhitespace).reverse = c := hright
    rw [hc, hleft']
  · rw [h2, List.reverse_append, List.reverse_reverse]
    cases hc2 : c with
    | nil => simp
    | cons x xs =>
      have hxws : Char.isWhitespace x = false := by
        by_contra hx
        have hx' : Char.isWhitespace x = true := by
          revert hx; cases Char.isWhitespace x <;> simp
        rw [hc2, List.dropWhile_cons, hx'] at hleft'
        simp only [if_true] at hleft'
        have hlen := congrArg List.length hleft'
        have hsub : (xs.dropWhile Char.isWhitespace).length ≤ xs.length :=
          (List.dropWhile_sublist _).length_le
        simp at hlen
        omega
      simp [List.dropWhile_cons, hxws]

/-- The content of a trimmed node is no longer than its full text. -/
theorem content_length_le_text (e : Enactment) (h : Trimmed e.content) :
    e.content.length ≤ e.text.length := by
  cases e with
  | mk n c sel ch =>
    show c.length ≤ (Enactment.text (Enactment.mk n c sel ch)).length
    rw [Enactment.text]
    rcases joinWithSpace_cons c (textParts ch) with ⟨r, hr⟩
    rw [hr]
    exact strip_append_length r h

/-! ### Supporting lemmas about the consolidation loop -/

/-- A successful inner-loop merge keeps the working list's length. -/
theorem tryMerge_length {left : Enactment} :
    ∀ {l l' : List Enactment}, tryMerge left l = Option.some l' →
      l'.length = l.length := by
  intro l
  induction l with
  | nil => intro l' h; simp [tryMerge] at h
  | cons r rest ih =>
    intro l' h
    rw [tryMerge] at h
    cases hadd : addOutcome left r with
    | some comb =>
      rw [hadd] at h
      simp only [Option.some.injEq] at h
      subst h
      simp
    | none =>
      rw [hadd] at h
      cases htm : tryMerge left rest with
      | some l2 =>
        rw [htm] at h
        simp only [Option.some.injEq] at h
        subst h
        simp [ih htm]
      | none => rw [htm] at h; exact absurd h (by simp)

/-- Splitting a nonempty list splits off exactly the last element. -/
theorem splitLast_length {l rest : List Enactment} {x : Enactment}
    (h : splitLast l = Option.some (rest, x)) : rest.length + 1 = l.length := by
  unfold splitLast at h
  cases hl : l.getLast? with
  | none => rw [hl] at h; exact absurd h (by simp)
  | some y =>
    rw [hl] at h
    simp only [Option.some.injEq, Prod.mk.injEq] at h
    have hne : l ≠ [] := by
      intro he; subst he; simp at hl
    rw [← h.1]
    have := List.length_dropLast l
    have hpos : 0 < l.length := List.length_pos.mpr hne
    omega

/-- Splitting returns nothing only on the empty list. -/
theorem splitLast_none {l : List Enactment} (h : splitLast l = Option.none) :
    l = [] := by
  unfold splitLast at h
  cases hl : l.getLast? with
  | none => exact List.getLast?_eq_none_iff.mp hl
  | some y => rw [hl] at h; exact absurd h (by simp)

/-- Any fuel of at least the list length runs the consolidation loop to
completion: the result is the one obtained with fuel exactly the length.
This is the termination argument of the Python `while` loop: every
iteration shortens the working list by one. -/
theorem consolidateLoop_fuel :
    ∀ (f : Nat) (l acc : List Enactment), l.length ≤ f →
      consolidateLoop f l acc = consolidateLoop l.length l acc := by
  intro f
  induction f with
  | zero =>
    intro l acc h
    have : l = [] := List.length_eq_zero.mp (Nat.le_zero.mp h)
    subst this
    rfl
  | succ f ih =>
    intro l acc h
    cases hsplit : splitLast l with
    | none =>
      have : l = [] := splitLast_none hsplit
      subst this
      rfl
    | some p =>
      obtain ⟨rest, left⟩ := p
      have hlen := splitLast_length hsplit
      have hlform : l.length = rest.length + 1 := hlen.symm
      rw [hlform]
      cases htm : tryMerge left rest with
      | some l' =>
        have hl' : l'.length = rest.length := tryMerge_length htm
        simp only [consolidateLoop, hsplit, htm]
        rw [ih l' acc (by omega), hl']
      | none =>
        simp only [consolidateLoop, hsplit, htm]
        rw [ih rest (acc ++ [left]) (by omega)]

/-- The consolidation loop returns at most `acc.length + l.length`
passages. -/
theorem consolidateLoop_length :
    ∀ (f : Nat) (l acc : List Enactment), l.length ≤ f →
      (consolidateLoop f l acc).length ≤ acc.length + l.length := by
  intro f
  induction f with
  | zero =>
    intro l acc h
    simp [consolidateLoop]
  | succ f ih =>
    intro l acc h
    cases hsplit : splitLast l with
    | none =>
      rw [consolidateLoop, hsplit]
      simp
    | some p =>
      obtain ⟨rest, left⟩ := p
      have hlen := splitLast_length hsplit
      simp only [consolidateLoop, hsplit]
      cases htm : tryMerge left rest with
      | some l' =>
        have hl' : l'.length = rest.length := tryMerge_length htm
        have := ih l' acc (by omega)
        simp only
        omega
      | none =>
        have := ih rest (acc ++ [left]) (by omega)
        simp only
        simp at this
        omega

/-! ### Supporting lemmas about the merge dispatcher -/

/-- The included-node merge returns the `self` object itself exactly when
`self >= other`. -/
theorem addIncluded_reusedSelf_iff (x y : Enactment) :
    add_enactment_at_included_node x y = AddResult.reusedSelf ↔
      impliesB x y = true := by
  unfold add_enactment_at_included_node
  by_cases h : impliesB x y = true
  · simp [h]
  · rcases hu : update_text_at_included_node x y with ⟨t, f, u⟩
    cases f <;> cases u <;> simp [h, hu]

/-- The included-node merge never reports that the other object was
reused. -/
theorem addIncluded_ne_reusedOther (x y : Enactment) :
    add_enactment_at_included_node x y ≠ AddResult.reusedOther := by
  unfold add_enactment_at_included_node
  by_cases h : impliesB x y = true
  · simp [h]
  · rcases hu : update_text_at_included_node x y with ⟨t, f, u⟩
    cases f <;> cases u <;> simp [h, hu]

/-- The raised-error condition as an existential over the supplied set. -/
theorem raisesExtra_iff (e : Enactment) (S : List Sel) :
    raisesExtraSelector e S = true ↔ ∃ s ∈ S, e.text.length + 1 < s.start := by
  simp [raisesExtraSelector, List.any_eq_true]

mutual

/-- After `select_none`, every node-local selection in the tree is empty. -/
theorem selectNone_clears : ∀ t : Enactment, allCleared (select_none t) = true
  | .mk n c sel ch => by
    rw [select_none, allCleared]
    rw [selectNoneList_clears ch]
    rfl

/-- Children version of `selectNone_clears`. -/
theorem selectNoneList_clears :
    ∀ l : List Enactment, allClearedList (selectNoneList l) = true
  | [] => rfl
  | t :: rest => by
    rw [selectNoneList, allClearedList]
    rw [selectNone_clears t, selectNoneList_clears rest]
    rfl

end

/-! ### Claim C1 — flattening equivalence -/

/-- Concrete single-node tree used for claim C1. -/
def enactC1 : Enactment := .mk "/x".toList "abcdefghij".toList [] []

/-- Claim C1, counterexample: the claim as stated is false.  On a childless
node with content `abcdefghij`, distributing the Position Set `{[4, 6)}`
through `select_from_text_positions` stores the margin-expanded range
`[0, 10)` (the `add_margin(width=4)` step of
`select_from_text_positions_without_nesting`), so the rendered sequence is
the whole text, while applying `{[4, 6)}` directly to the flattened text
renders `(gap, "ef", gap)`.  The two Text Passage Sequences differ. -/
theorem c1_counterexample :
    asTextSequence
        (Enactment.text ((select_from_text_positions enactC1 [⟨4, 6⟩]).1))
        (tree_selection ((select_from_text_positions enactC1 [⟨4, 6⟩]).1)) true
      = [Option.some "abcdefghij".toList] ∧
    asTextSequence (Enactment.text enactC1) [⟨4, 6⟩] true
      = [Option.none, Option.some "ef".toList, Option.none] ∧
    ([Option.some "abcdefghij".toList] : List (Option (List Char)))
      ≠ [Option.none, Option.some "ef".toList, Option.none] := by
  refine ⟨by decide, by decide, by decide⟩

/-- Claim C1 (amended): for a childless node with trimmed content and a
normalized in-bounds Position Set that is a fixed point of margin expansion
at width 4, distributing the set through the Tree Selection Propagator
(`select_from_text_positions`) and then rendering yields the same Text
Passage Sequence as applying the same ranges directly to the flattened text.
The margin-fixed-point hypothesis is forced by the counterexample: the
stored node-local selection is always post-processed with
`add_margin(width=4)`. -/
theorem c1_amended (pth c : List Char) (sel0 S : List Sel)
    (htrim : Trimmed c) (hnorm : isNormalized S = true)
    (hbound : ∀ s ∈ S, s.stop ≤ c.length)
    (hfix : addMargin c.length 4 S = S) :
    asTextSequence
        (Enactment.text ((select_from_text_positions (Enactment.mk pth c sel0 []) S).1))
        (tree_selection ((select_from_text_positions (Enactment.mk pth c sel0 []) S).1))
        true
      = asTextSequence (Enactment.text (Enactment.mk pth c sel0 [])) S true := by
  have hswn : swnLoop c.length S = (S, []) := swnLoop_consume hnorm hbound
  have hns : normSet S = S := normSet_of_isNormalized hnorm
  have hsel : (select_from_text_positions (Enactment.mk pth c sel0 []) S).1
      = Enactment.mk pth c S [] := by
    rw [select_from_text_positions]
    simp only [select_from_text_positions_without_nesting, hswn, hns, hfix]
    rfl
  have htext : ∀ X : List Sel, Enactment.text (Enactment.mk pth c X []) = c := by
    intro X
    rw [Enactment.text]
    show strip (joinWithSpace [c]) = c
    show strip c = c
    show trimLeftWs (trimRightWs c) = c
    rw [htrim.2, htrim.1]
  have htree : tree_selection (Enactment.mk pth c S []) = S := by
    unfold tree_selection
    rw [tree_selection_aux]
    show (PosSet.union [] (PosSet.offset 0 S), 0 + padded_len c).1 = S
    simp only [offset_zero]
    show PosSet.union [] S = S
    unfold PosSet.union
    rw [List.nil_append, hns]
  rw [hsel, htree, htext, htext]

/-- Claim C1, witness: the amended theorem applied to the concrete node
`abcdefghij` and the full-range selection `{[0, 10)}`, which is a margin
fixed point. -/
theorem c1_witness :
    asTextSequence
        (Enactment.text
          ((select_from_text_positions
            (Enactment.mk "/x".toList "abcdefghij".toList [] []) [⟨0, 10⟩]).1))
        (tree_selection
          ((select_from_text_positions
            (Enactment.mk "/x".toList "abcdefghij".toList [] []) [⟨0, 10⟩]).1)) true
      = asTextSequence
          (Enactment.text (Enactment.mk "/x".toList "abcdefghij".toList [] []))
          [⟨0, 10⟩] true :=
  c1_amended "/x".toList "abcdefghij".toList [] [⟨0, 10⟩]
    (by decide) (by decide) (by decide) (by decide)

/-! ### Claim C2 — the text accessor versus the recursive full text -/

/-- A three-level chain (content `a`, child `b`, grandchild `c`) on which the
source's `Enactment.text` loses the grandchild. -/
def enactC2 : Enactment :=
  .mk "/a".toList "a".toList []
    [.mk "/a/1".toList "b".toList [] [.mk "/a/1/1".toList "c".toList [] []]]

/-- Claim C2: the source's `Enactment.text` appends `child.content` (not the
child's recursive `text`) for each child whose `text` is truthy, so on a
three-level chain it returns `a b` while the space-joined recursive
concatenation the claim (and the accessor's own docstring, "Get all text
including subnodes") describes is `a b c`.  The `padded_length` half of the
claim holds: for this node with nonempty content `a` it is `2`. -/
theorem c2_text_bug :
    Enactment.text enactC2 = "a b".toList ∧
    fullText enactC2 = "a b c".toList ∧
    Enactment.text enactC2 ≠ fullText enactC2 ∧
    Enactment.padded_length enactC2 = 2 := by
  refine ⟨by decide, by decide, by decide, by decide⟩

/-! ### Claim C3 — merge never mutates and returns a fresh passage -/

/-- A passage selecting all of `abc`. -/
def passC3a : Enactment := .mk "/x".toList "abc".toList [⟨0, 3⟩] []

/-- A passage selecting `ab` within the same text. -/
def passC3b : Enactment := .mk "/x".toList "abc".toList [⟨0, 2⟩] []

/-- Claim C3, counterexample: `a + b` does not always return a new passage
distinct from both inputs: when `a >= b`,
`_add_enactment_at_included_node` returns the object `a` itself
(`AddResult.reusedSelf`), not a fresh copy. -/
theorem c3_counterexample :
    addPassage passC3a passC3b = AddResult.reusedSelf ∧
    passC3a.selection ≠ passC3b.selection := by
  exact ⟨rfl, by decide⟩

/-- Claim C3 (amended): the merge never mutates its inputs (all updates are
performed on the deep copy carried by `AddResult.fresh`), and it returns one
of the input objects themselves — rather than a new passage — exactly when
one citation path is a prefix of the other and the corresponding passage
already implies the other: `a` itself is returned iff `a.node` prefixes
`b.node` and `a >= b`; `b` itself is returned iff `a.node` does not prefix
`b.node`, `b.node` prefixes `a.node`, and `b >= a`. -/
theorem c3_amended (a b : Enactment) :
    (addPassage a b = AddResult.reusedSelf ↔
      (List.isPrefixOf a.node b.node = true ∧ impliesB a b = true)) ∧
    (addPassage a b = AddResult.reusedOther ↔
      (List.isPrefixOf a.node b.node = false ∧
        List.isPrefixOf b.node a.node = true ∧ impliesB b a = true)) := by
  have hx := addIncluded_reusedSelf_iff a b
  have hy := addIncluded_reusedSelf_iff b a
  have hz := addIncluded_ne_reusedOther a b
  have hw := addIncluded_ne_reusedOther b a
  cases hp1 : List.isPrefixOf a.node b.node with
  | true =>
    have hEq : addPassage a b = add_enactment_at_included_node a b := by
      simp [addPassage, hp1]
    constructor
    · rw [hEq, hx]
      exact ⟨fun h => ⟨rfl, h⟩, fun h => h.2⟩
    · rw [hEq]
      constructor
      · intro h
        exact absurd h hz
      · rintro ⟨hf, -⟩
        exact Bool.noConfusion hf
  | false =>
    cases hp2 : List.isPrefixOf b.node a.node with
    | true =>
      have hEq : addPassage a b =
          (match add_enactment_at_included_node b a with
           | AddResult.reusedSelf => AddResult.reusedOther
           | r => r) := by
        simp [addPassage, hp1, hp2]
      rw [hEq]
      cases hba : add_enactment_at_included_node b a with
      | reusedSelf =>
        constructor
        · constructor
          · intro h
            exact AddResult.noConfusion h
          · rintro ⟨hf, -⟩
            exact Bool.noConfusion hf
        · constructor
          · intro _
            exact ⟨rfl, rfl, hy.mp hba⟩
          · intro _
            rfl
      | reusedOther => exact absurd hba hw
      | fresh t =>
        constructor
        · constructor
          · intro h
            exact AddResult.noConfusion h
          · rintro ⟨hf, -⟩
            exact Bool.noConfusion hf
        · constructor
          · intro h
            exact AddResult.noConfusion h
          · rintro ⟨-, -, himp⟩
            rw [hy.mpr himp] at hba
            exact AddResult.noConfusion hba
      | errNotFound =>
        constructor
        · constructor
          · intro h
            exact AddResult.noConfusion h
          · rintro ⟨hf, -⟩
            exact Bool.noConfusion hf
        · constructor
          · intro h
            exact AddResult.noConfusion h
          · rintro ⟨-, -, himp⟩
            rw [hy.mpr himp] at hba
            exact AddResult.noConfusion hba
      | errNotUpdated =>
        constructor
        · constructor
          · intro h
            exact AddResult.noConfusion h
          · rintro ⟨hf, -⟩
            exact Bool.noConfusion hf
        · constructor
          · intro h
            exact AddResult.noConfusion h
          · rintro ⟨-, -, himp⟩
            rw [hy.mpr himp] at hba
            exact AddResult.noConfusion hba
      | errUnrelated =>
        constructor
        · constructor
          · intro h
            exact AddResult.noConfusion h
          · rintro ⟨hf, -⟩
            exact Bool.noConfusion hf
        · constructor
          · intro h
            exact AddResult.noConfusion h
          · rintro ⟨-, -, himp⟩
            rw [hy.mpr himp] at hba
            exact AddResult.noConfusion hba
    | false =>
      have hEq : addPassage a b = AddResult.errUnrelated := by
        simp [addPassage, hp1, hp2]
      rw [hEq]
      constructor
      · constructor
        · intro h
          exact AddResult.noConfusion h
        · rintro ⟨hf, -⟩
          exact Bool.noConfusion hf
      · constructor
        · intro h
          exact AddResult.noConfusion h
        · rintro ⟨-, hf, -⟩
          exact Bool.noConfusion hf

/-- Claim C3, witness: the amended characterization at the concrete pair of
passages `passC3a`, `passC3b`. -/
theorem c3_witness :
    addPassage passC3a passC3b = AddResult.reusedSelf ↔
      (List.isPrefixOf passC3a.node passC3b.node = true ∧
        impliesB passC3a passC3b = true) :=
  (c3_amended passC3a passC3b).1

/-! ### Claim C4 — re-anchoring against a changed text version -/

/-- Claim C4: merging at the same citation path with differing text
re-anchors by converting each selected range of the other passage to a quote
against the other passage's text.  The operation raises an error exactly when
some such quoted text does not occur exactly once in this passage's text, and
when every quote resolves uniquely, the resolved position ranges
(`quotePositions`) are added to the selection through
`select_more_text_in_current_branch`. -/
theorem c4_reanchor (a b : Enactment) :
    (isErr (select_more_text_from_changed_version a b) = true ↔
      ∃ s ∈ tree_selection b, countOccur (sliceText b.text s) a.text ≠ 1) ∧
    (isErr (select_more_text_from_changed_version a b) = false →
      select_more_text_from_changed_version a b =
        Except.ok (select_more_text_in_current_branch a (quotePositions a b))) := by
  unfold select_more_text_from_changed_version
  by_cases hall : ((tree_selection b).map (fun s => sliceText b.text s)).all
      (fun q => decide (countOccur q a.text = 1)) = true
  · rw [if_pos hall]
    constructor
    · constructor
      · intro h
        exact absurd h (by simp [isErr])
      · rintro ⟨s, hs, hne⟩
        have hmem : sliceText b.text s ∈
            (tree_selection b).map (fun s => sliceText b.text s) :=
          List.mem_map_of_mem _ hs
        have := List.all_eq_true.mp hall _ hmem
        simp only [decide_eq_true_eq] at this
        exact absurd this hne
    · intro _
      rfl
  · rw [if_neg hall]
    constructor
    · constructor
      · intro _
        have : ∃ q ∈ (tree_selection b).map (fun s => sliceText b.text s),
            ¬(countOccur q a.text = 1) := by
          by_contra hno
          push_neg at hno
          exact hall (List.all_eq_true.mpr (fun q hq => decide_eq_true (hno q hq)))
        rcases this with ⟨q, hq, hne⟩
        rcases List.mem_map.mp hq with ⟨s, hs, rfl⟩
        exact ⟨s, hs, hne⟩
      · intro _
        rfl
    · intro h
      exact absurd h (by simp [isErr])

/-- Passage holding the newer text version for the C4 witness. -/
def enactC4a : Enactment := .mk "/x".toList "hello world".toList [] []

/-- Passage holding the older text version, with `world` selected, for the
C4 witness. -/
def enactC4b : Enactment := .mk "/x".toList "world".toList [⟨0, 5⟩] []

/-- Claim C4, witness: re-anchoring the selection `world` from the old
version into the text `hello world` resolves uniquely and succeeds. -/
theorem c4_witness :
    select_more_text_from_changed_version enactC4a enactC4b =
      Except.ok (select_more_text_in_current_branch enactC4a
        (quotePositions enactC4a enactC4b)) :=
  (c4_reanchor enactC4a enactC4b).2 (by decide)

/-! ### Claim C5 — when the unused-selector error is raised -/

/-- Claim C5 (amended): the selection operations raise the
`Selector ... was not used` error if and only if some supplied range begins
more than one character past the end of the enactment's full text
(`start > len(text) + 1`), not strictly after the end of the text
(`start > len(text)`) as the claim states; a range whose start lies in
`(len(text), len(text) + 1]` begins strictly after the end of the text but is
accepted.  Stated for a normalized supplied set and a node with trimmed
content (so that its content is no longer than its text). -/
theorem c5_amended (e : Enactment) (S : List Sel)
    (htrim : Trimmed e.content) (hnorm : isNormalized S = true) :
    (isErr (make_selection e (SelectionInput.posSel S) 0 Option.none) = true ↔
      ∃ s ∈ S, e.text.length + 1 < s.start) ∧
    ((select_without_children e S).2 = true ↔
      ∃ s ∈ S, e.text.length + 1 < s.start) ∧
    (∀ sel0 : List Sel, (select_more ⟨e, sel0⟩ S).2 = true ↔
      ∃ s ∈ S, e.text.length + 1 < s.start) := by
  have hns : normSet S = S := normSet_of_isNormalized hnorm
  have hclen : e.content.length ≤ e.text.length := content_length_le_text e htrim
  refine ⟨?_, ?_, ?_⟩
  · unfold make_selection
    simp only [hns]
    by_cases hr : raisesExtraSelector e S = true
    · rw [if_pos hr]
      simp only [isErr]
      exact ⟨fun _ => (raisesExtra_iff e S).mp hr, fun _ => trivial⟩
    · rw [if_neg hr]
      simp only [isErr]
      constructor
      · intro h
        exact absurd h (by simp)
      · intro hex
        exact absurd ((raisesExtra_iff e S).mpr hex) hr
  · unfold select_without_children select_from_text_positions_without_nesting
    simp only [hns]
    have hleftnorm : isNormalized (swnLoop e.content.length S).2 = true :=
      swnLoop_leftover_norm hnorm
    rw [normSet_of_isNormalized hleftnorm]
    rw [raisesExtra_iff]
    constructor
    · rintro ⟨t, ht, hgt⟩
      rcases swnLoop_leftover_mem ht with hmem | hstart
      · exact ⟨t, hmem, hgt⟩
      · omega
    · rintro ⟨s, hs, hgt⟩
      exact ⟨s, swnLoop_leftover_keeps hs (by omega), hgt⟩
  · intro sel0
    unfold select_more
    simp only [hns]
    exact raisesExtra_iff e S

/-- A leaf node with text `abc` used for claim C5. -/
def enactC5 : Enactment := .mk "/x".toList "abc".toList [] []

/-- Claim C5, witness: the amended equivalence at the node `abc` and the
range `[6, 9)`, whose start exceeds `len(text) + 1 = 4`. -/
theorem c5_witness :
    (select_without_children enactC5 [⟨6, 9⟩]).2 = true ↔
      ∃ s ∈ [(⟨6, 9⟩ : Sel)], (Enactment.text enactC5).length + 1 < s.start :=
  (c5_amended enactC5 [⟨6, 9⟩] (by decide) (by decide)).2.1

/-- Claim C5, counterexample: the claim as stated is false.  The range
`[4, 9)` begins at position 4, strictly after the end of the text `abc`
(length 3), yet none of the three selection operations raises the error,
because the code's check is `start > len(text) + 1`. -/
theorem c5_counterexample :
    isErr (make_selection enactC5 (SelectionInput.posSel [⟨4, 9⟩]) 0 Option.none)
        = false ∧
    (select_without_children enactC5 [⟨4, 9⟩]).2 = false ∧
    (select_more ⟨enactC5, []⟩ [⟨4, 9⟩]).2 = false ∧
    (Enactment.text enactC5).length < 4 := by
  refine ⟨by decide, by decide, by decide, by decide⟩

/-! ### Claim C6 — boolean selector sugar -/

/-- Claim C6 (amended): `make_selection` and `select` with the boolean `True`
produce exactly the full range `[0, len(text))` (the empty set when the text
is empty), and `False` or an absent selector produce the empty set — as the
claim states.  But `convert_selection_to_set` with `True` produces
`[0, len(content) + 1)`, built from the node's own content length plus one,
not the full range over the flattened text. -/
theorem c6_boolean_sugar (e : Enactment) :
    make_selection e (SelectionInput.boolSel true) 0 Option.none =
      Except.ok (if e.text = [] then [] else [⟨0, e.text.length⟩]) ∧
    make_selection e (SelectionInput.boolSel false) 0 Option.none = Except.ok [] ∧
    make_selection e SelectionInput.noneSel 0 Option.none = Except.ok [] ∧
    Enactment.select e (SelectionInput.boolSel true) =
      Except.ok ⟨e, if e.text = [] then [] else [⟨0, e.text.length⟩]⟩ ∧
    convert_selection_to_set e (SelectionInput.boolSel true) =
      [⟨0, e.content.length + 1⟩] := by
  refine ⟨rfl, rfl, rfl, rfl, ?_⟩
  exact normSet_singleton (Nat.succ_pos _)

/-- A node with content `abc` and a child `def`, whose flattened text is
`abc def` (length 7). -/
def enactC6 : Enactment :=
  .mk "/x".toList "abc".toList [] [.mk "/x/1".toList "def".toList [] []]

/-- Claim C6, counterexample: `convert_selection_to_set` with `True` yields
`[0, 4)` (= `len(content) + 1`) on a node whose full text has length 7, not
the claimed full range `[0, 7)`. -/
theorem c6_counterexample :
    convert_selection_to_set enactC6 (SelectionInput.boolSel true) = [⟨0, 4⟩] ∧
    (Enactment.text enactC6).length = 7 ∧
    ([(⟨0, 4⟩ : Sel)] : List Sel) ≠ [⟨0, 7⟩] := by
  refine ⟨by decide, by decide, by decide⟩

/-! ### Claim C7 — select_none clears recursively -/

/-- Claim C7: `select_none` always succeeds (it is a total function of the
tree) and afterwards the passage's selection and the selections of all child
nodes are empty, recursively. -/
theorem c7_select_none : ∀ t : Enactment, allCleared (select_none t) = true :=
  fun t => selectNone_clears t

/-! ### Claim C8 — consolidation terminates; the result as a fixed point -/

/-- Claim C8 (amended): `consolidate_enactments` terminates — the loop
consumes one element of the working list per iteration, so any fuel of at
least the input length yields the same result — and returns at most as many
passages as supplied.  The claim's fixed-point property fails: the single
left-to-right pass can leave a returned pair that still merges successfully
(see the counterexample). -/
theorem c8_amended (l : List Enactment) (f : Nat) (h : l.length ≤ f) :
    consolidateLoop f l [] = consolidate_enactments l ∧
    (consolidate_enactments l).length ≤ l.length := by
  constructor
  · rw [consolidate_enactments]
    exact consolidateLoop_fuel f l [] h
  · rw [consolidate_enactments]
    simpa using consolidateLoop_length l.length l [] (le_refl _)

/-- A passage of version text `hello` with nothing selected. -/
def consHello : Enactment := .mk "/x".toList "hello".toList [] []

/-- A passage of version text `world` (same citation path) selecting all of
`world`. -/
def consWorld : Enactment := .mk "/x".toList "world".toList [⟨0, 5⟩] []

/-- Claim C8, witness: the amended theorem at the concrete two-element list,
with surplus fuel. -/
theorem c8_witness :
    consolidateLoop 5 [consWorld, consHello] [] =
      consolidate_enactments [consWorld, consHello] ∧
    (consolidate_enactments [consWorld, consHello]).length ≤
      ([consWorld, consHello] : List Enactment).length :=
  c8_amended [consWorld, consHello] 5 (by decide)

/-- Claim C8, counterexample: the returned list is not a fixed point of the
pairwise-merge reduction.  Consolidating `[consWorld, consHello]` pops
`consHello` first; `consHello + consWorld` raises (the quote `world` does not
occur in `hello`), so both passages are returned — yet the merge
`consWorld + consHello` of the two returned elements succeeds (`consWorld`
implies the empty selection of `consHello`). -/
theorem c8_counterexample :
    consolidate_enactments [consWorld, consHello] = [consHello, consWorld] ∧
    addOutcome consWorld consHello = Option.some consWorld ∧
    addOutcome consHello consWorld = Option.none := by
  exact ⟨rfl, rfl, rfl⟩

/-! ### Claim C9 — margin post-processing of stored selections -/

/-- The ten-character content used for claim C9. -/
def enactC9text : List Char := "abcdefghij".toList

/-- Claim C9: every selection stored by
`select_from_text_positions_without_nesting` and every selection produced by
`select_more` is post-processed with `add_margin` at margin width 4 (bounded
by the node's text), and for some inputs the stored selection strictly
exceeds the union of the requested ranges: requesting `[4, 6)` in a
ten-character content stores `[0, 10)`, which covers position 0 although the
request does not, while covering every requested position. -/
theorem c9_margin :
    (∀ (content : List Char) (S : List Sel),
      (select_from_text_positions_without_nesting content S).1 =
        addMargin content.length 4 (normSet (swnLoop content.length S).1)) ∧
    (∀ (p : EnactmentPassage) (S : List Sel),
      (select_more p S).1.selection =
        addMargin p.enactment.text.length 4 (PosSet.union p.selection (normSet S))) ∧
    (select_from_text_positions_without_nesting enactC9text [⟨4, 6⟩]).1 = [⟨0, 10⟩] ∧
    (List.range 10).all (fun p => !covers [⟨4, 6⟩] p || covers [⟨0, 10⟩] p) = true ∧
    covers [⟨0, 10⟩] 0 = true ∧ covers [⟨4, 6⟩] 0 = false := by
  exact ⟨fun c S => rfl, fun p S => rfl, by decide, by decide, by decide, by decide⟩

/-! ### Claim C10 — select_more is not atomic on error -/

/-- The passage over `abc` with nothing selected, used for claim C10. -/
def passC10 : EnactmentPassage := ⟨Enactment.mk "/x".toList "abc".toList [] [], []⟩

/-- Claim C10: when `select_more` raises the `Selector ... was not used`
error, the passage's selection has already been replaced by the
margin-expanded union with the new ranges, and it is not restored: the
returned state always carries the updated selection, and at the concrete
input the error is raised while the selection differs from the original. -/
theorem c10_not_atomic :
    (∀ (p : EnactmentPassage) (S : List Sel), (select_more p S).2 = true →
      (select_more p S).1.selection =
        addMargin p.enactment.text.length 4 (PosSet.union p.selection (normSet S)) ∧
      (select_more p S).1.enactment = p.enactment) ∧
    ((select_more passC10 [⟨6, 9⟩]).2 = true ∧
      (select_more passC10 [⟨6, 9⟩]).1.selection ≠ passC10.selection) := by
  exact ⟨fun p S _ => ⟨rfl, rfl⟩, by decide, by decide⟩

/-- Claim C10, witness: the non-atomicity equation at the concrete erroring
call. -/
theorem c10_witness :
    (select_more passC10 [⟨6, 9⟩]).1.selection =
      addMargin passC10.enactment.text.length 4
        (PosSet.union passC10.selection (normSet [⟨6, 9⟩])) ∧
    (select_more passC10 [⟨6, 9⟩]).1.enactment = passC10.enactment :=
  c10_not_atomic.1 passC10 [⟨6, 9⟩] c10_not_atomic.2.1
